import Mathlib

/-!
# Verification of `polynomial-regressions` (src/main.py)

Shallow embedding of the three functions of `src/main.py`:

* `least_squares_polynomial(data, N)` — assembles the normal-equations
  system from power sums and solves it with `np.linalg.inv`;
* `coefficients_to_string(polynomial_coefficients, round_to=4)` — renders
  the polynomial as a `"y = ..."` string;
* `get_point(polynomial_coefficients, x)` — evaluates the polynomial.

Real numbers are modelled exactly by `ℚ` (the claims under scrutiny are
about control flow, shapes and exact values, not binary floating-point
artefacts).  A Python run that raises an exception is modelled by an
explicit error value: `Except NpError _` for the fitter (`np.empty` with a
negative dimension raises `ValueError`, `np.linalg.inv` on a singular
matrix raises `LinAlgError`), and `Option` for the formatter (`none`
models the `IndexError` raised by an out-of-range list or string index).
-/

namespace PolyReg

open Matrix

/-- Errors that `least_squares_polynomial` can raise: `valueError` models
`np.empty` called with a negative dimension, `linAlgError` models
`np.linalg.inv` applied to a singular matrix. -/
inductive NpError
  | valueError
  | linAlgError
  deriving DecidableEq, Repr

/-- Line 26: `sums_of_x = [sum(x ** p for x, y in data) for p in range(2 * N + 1)]`.
For each power `p` in `[0, 2N]`, the sum of each x coordinate raised to `p`.
`N` is an integer, exactly as a Python caller may pass it; `range` of a
negative bound is empty, hence `Int.toNat`. -/
def sums_of_x (data : List (ℚ × ℚ)) (N : ℤ) : List ℚ :=
  (List.range (2 * N + 1).toNat).map (fun p => (data.map (fun q => q.1 ^ p)).sum)

/-- Lines 29–32: the `(N+1)×(N+1)` matrix with `A[i][j] = sums_of_x[i + j]`. -/
def Amat (data : List (ℚ × ℚ)) (N : ℤ) :
    Matrix (Fin (N + 1).toNat) (Fin (N + 1).toNat) ℚ :=
  Matrix.of fun i j => (sums_of_x data N).getD ((i : ℕ) + (j : ℕ)) 0

/-- Line 35: `sums_of_y = [sum(y * x ** p for x, y in data) for p in range(N + 1)]`. -/
def sums_of_y (data : List (ℚ × ℚ)) (N : ℤ) : List ℚ :=
  (List.range (N + 1).toNat).map (fun p => (data.map (fun q => q.2 * q.1 ^ p)).sum)

/-- Lines 38–40: the `(N+1)×1` right-hand side `B[i][0] = sums_of_y[i]`. -/
def Bvec (data : List (ℚ × ℚ)) (N : ℤ) : Fin (N + 1).toNat → ℚ :=
  fun i => (sums_of_y data N).getD (i : ℕ) 0

/-- Exact-arithmetic model of `np.linalg.inv`: it raises `LinAlgError`
precisely on a singular matrix (LU elimination meets a zero pivot), and
otherwise returns the inverse. -/
def np_linalg_inv {n : ℕ} (A : Matrix (Fin n) (Fin n) ℚ) :
    Option (Matrix (Fin n) (Fin n) ℚ) :=
  if A.det = 0 then none else some (A.det⁻¹ • A.adjugate)

/-- Lines 23–45: `least_squares_polynomial(data, N)`.
`np.empty((N + 1, N + 1))` raises `ValueError` when `N + 1 < 0` (for
`N + 1 = 0` it builds an empty `0×0` matrix, which `np.linalg.inv` accepts
and inverts trivially).  Otherwise the assembled system is solved by
inverting `A`, and the flattened coefficient list is returned. -/
def least_squares_polynomial (data : List (ℚ × ℚ)) (N : ℤ) :
    Except NpError (List ℚ) :=
  if N + 1 < 0 then .error .valueError
  else
    match np_linalg_inv (Amat data N) with
    | none => .error .linAlgError
    | some Ainv =>
        .ok ((List.finRange (N + 1).toNat).map
          (fun i => Ainv.mulVec (Bvec data N) i))

/-- Round-half-to-even on `ℚ`, the tie-breaking rule of Python `round`.
`q.num.fdiv q.den` is the floor of `q` (floor division). -/
def round_half_even (q : ℚ) : ℤ :=
  let f := q.num.fdiv q.den
  if q - f < 1 / 2 then f
  else if 1 / 2 < q - f then f + 1
  else if f % 2 = 0 then f else f + 1

/-- Python `round(val, n)` on an exactly-represented decimal value:
round `val * 10^n` half-to-even and scale back. -/
def py_round (q : ℚ) (n : ℕ) : ℚ :=
  (round_half_even (q * 10 ^ n) : ℚ) / 10 ^ n

/-- Drop trailing `'0'` characters. -/
def strip_trailing_zeros (l : List Char) : List Char :=
  (l.reverse.dropWhile (fun c => c = '0')).reverse

/-- Python `str(v)` for a float holding the decimal value `q` (the only
values the formatter prints: coefficients already rounded to a few decimal
places, in the plain non-scientific range).  Integer part, a dot, then the
fractional digits with trailing zeros removed, `"0"` when none remain —
e.g. `str(7.0) = "7.0"`, `str(0.25) = "0.25"`. -/
def py_float_str (q : ℚ) : String :=
  let sgn := if q < 0 then "-" else ""
  let a := |q|
  let k := ((List.range 18).find? (fun k => (a * 10 ^ k).den = 1)).getD 17
  let m := (a * 10 ^ k).num.toNat
  let ip := m / 10 ^ k
  let fp := m % 10 ^ k
  let fs := Nat.toDigits 10 fp
  let fsPad := List.replicate (k - fs.length) '0' ++ fs
  let fsTrim := strip_trailing_zeros fsPad
  sgn ++ toString ip ++ "." ++ (if fsTrim = [] then "0" else String.mk fsTrim)

/-- Lines 64–67: the loop `for p, val in enumerate(C[2:], 2)` appending the
terms of order at least two. -/
def add_higher_terms : List ℚ → ℕ → String → String
  | [], _, y => y
  | v :: rest, p, y =>
      add_higher_terms rest (p + 1)
        (if v ≠ 0 then
          y ++ (if 0 ≤ v then " + " else " - ") ++ py_float_str |v| ++ "x^" ++ toString p
        else y)

/-- Lines 47–71: `coefficients_to_string(polynomial_coefficients, round_to)`
(the Python default for `round_to` is 4).  `none` models an `IndexError`:
line 54 reads `C[0]`, line 59 reads `C[1]` unconditionally, and line 70
reads `y[4]`, which raises when the string is still the bare `"y ="`. -/
def coefficients_to_string (pc : List ℚ) (round_to : ℕ) : Option String := do
  let C := pc.map (fun v => py_round v round_to)
  let c0 ← C.get? 0
  let y := "y ="
  let y := if c0 ≠ 0 ∨ C.length = 1 then
      y ++ (if 0 ≤ c0 then " + " else " - ") ++ py_float_str |c0|
    else y
  let c1 ← C.get? 1
  let y := if c1 ≠ 0 then
      y ++ (if 0 ≤ c1 then " + " else " - ") ++ py_float_str |c1| ++ "x"
    else y
  let y := add_higher_terms (C.drop 2) 2 y
  let cs := y.toList
  if h : 4 < cs.length then
    some (String.mk (if cs.get ⟨4, h⟩ = '-' then cs.take 5 ++ cs.drop 6
                     else cs.take 4 ++ cs.drop 6))
  else none

/-- Lines 73–75: `get_point(polynomial_coefficients, x)`:
`sum(val * x ** p for p, val in enumerate(polynomial_coefficients))`. -/
def get_point (pc : List ℚ) (x : ℚ) : ℚ :=
  (pc.enum.map (fun pv => pv.2 * x ^ pv.1)).sum

/-- The Evaluator contract as the spec words it: the sum over `p` of
`coefficients[p] · x^p`. -/
def spec_evaluate (pc : List ℚ) (x : ℚ) : ℚ :=
  ∑ p in Finset.range pc.length, pc.getD p 0 * x ^ p

/-! ## Helper lemmas -/

theorem sums_of_x_getD (data : List (ℚ × ℚ)) (N : ℤ) (k : ℕ)
    (hk : k < (2 * N + 1).toNat) :
    (sums_of_x data N).getD k 0 = (data.map (fun q => q.1 ^ k)).sum := by
  have hlen : (sums_of_x data N).length = (2 * N + 1).toNat := by
    simp [sums_of_x]
  rw [List.getD_eq_getElem _ 0 (by omega)]
  simp [sums_of_x]

theorem sums_of_y_getD (data : List (ℚ × ℚ)) (N : ℤ) (k : ℕ)
    (hk : k < (N + 1).toNat) :
    (sums_of_y data N).getD k 0 = (data.map (fun q => q.2 * q.1 ^ k)).sum := by
  have hlen : (sums_of_y data N).length = (N + 1).toNat := by
    simp [sums_of_y]
  rw [List.getD_eq_getElem _ 0 (by omega)]
  simp [sums_of_y]

theorem Amat_apply (data : List (ℚ × ℚ)) (N : ℤ) (i j : Fin (N + 1).toNat) :
    Amat data N i j = (data.map (fun q => q.1 ^ ((i : ℕ) + (j : ℕ)))).sum := by
  have hi := i.isLt
  have hj := j.isLt
  simpa [Amat] using sums_of_x_getD data N ((i : ℕ) + (j : ℕ)) (by omega)

theorem np_linalg_inv_eq_none {n : ℕ} (A : Matrix (Fin n) (Fin n) ℚ)
    (h : A.det = 0) : np_linalg_inv A = none := by
  simp [np_linalg_inv, h]

/-- A singular assembled matrix makes the solve raise `LinAlgError`. -/
theorem lsp_error_of_det_eq_zero (data : List (ℚ × ℚ)) (N : ℤ)
    (h : (Amat data N).det = 0) :
    least_squares_polynomial data N = .error .linAlgError := by
  have hN : ¬ N + 1 < 0 := by
    intro hlt
    haveI : IsEmpty (Fin (N + 1).toNat) := by
      rw [Int.toNat_eq_zero.mpr hlt.le]
      infer_instance
    rw [Matrix.det_isEmpty] at h
    exact one_ne_zero h
  unfold least_squares_polynomial
  rw [if_neg hN, np_linalg_inv_eq_none _ h]

/-- The Vandermonde-style factorisation `A = Vᵀ * V` forces `det A = 0`
whenever there are fewer points than `N + 1` unknowns. -/
theorem det_Amat_eq_zero_of_underdetermined (data : List (ℚ × ℚ)) (N : ℤ)
    (hN : 0 ≤ N) (hlen : (data.length : ℤ) < N + 1) :
    (Amat data N).det = 0 := by
  have hmn : data.length < (N + 1).toNat := by omega
  set V : Matrix (Fin data.length) (Fin (N + 1).toNat) ℚ :=
    Matrix.of (fun r c => (data[r.1]).1 ^ (c : ℕ)) with hV
  have hfact : Amat data N = Vᵀ * V := by
    ext i j
    rw [Amat_apply, Matrix.mul_apply,
      ← Fin.sum_univ_get' data (fun q => q.1 ^ ((i : ℕ) + (j : ℕ)))]
    refine Finset.sum_congr rfl (fun r _ => ?_)
    simp [hV, Matrix.transpose_apply, pow_add]
  obtain ⟨v, hv, hVv⟩ : ∃ v ≠ 0, V.mulVec v = 0 := by
    have hni : ¬ Function.Injective V.mulVecLin := by
      intro hinj
      have hle := LinearMap.finrank_le_finrank_of_injective hinj
      simp only [Module.finrank_fintype_fun_eq_card, Fintype.card_fin] at hle
      omega
    rw [Function.not_injective_iff] at hni
    obtain ⟨a, b, hab, hne⟩ := hni
    refine ⟨a - b, sub_ne_zero.mpr hne, ?_⟩
    have : V.mulVecLin (a - b) = 0 := by
      rw [map_sub, hab, sub_self]
    simpa [Matrix.mulVecLin_apply] using this
  rw [hfact]
  refine Matrix.exists_mulVec_eq_zero_iff.mp ⟨v, hv, ?_⟩
  rw [← Matrix.mulVec_mulVec, hVv, Matrix.mulVec_zero]

theorem add_higher_terms_of_zeros (l : List ℚ) (p : ℕ) (y : String)
    (h : ∀ v ∈ l, v = 0) : add_higher_terms l p y = y := by
  induction l generalizing p y with
  | nil => rfl
  | cons a t ih =>
      have ha : a = 0 := h a (by simp)
      rw [add_higher_terms, if_neg (fun hn => hn ha)]
      exact ih (p + 1) y (fun v hv => h v (by simp [hv]))

theorem gp_enumFrom (pc : List ℚ) (x : ℚ) (s : ℕ) :
    ((pc.enumFrom s).map (fun pv => pv.2 * x ^ pv.1)).sum
      = ∑ p in Finset.range pc.length, pc.getD p 0 * x ^ (s + p) := by
  induction pc generalizing s with
  | nil => simp
  | cons a t ih =>
      simp only [List.enumFrom_cons, List.map_cons, List.sum_cons, ih,
        List.length_cons]
      rw [Finset.sum_range_succ']
      simp only [List.getD_cons_succ, List.getD_cons_zero, add_zero]
      rw [add_comm]
      congr 1
      refine Finset.sum_congr rfl (fun p _ => ?_)
      rw [show s + 1 + p = s + (p + 1) from by omega]

/-! ## Claim theorems -/

/-- C1: for the single point (3, 7) and order 0 the fit does return the
coefficient vector [7.0], but the Formatter applied to that one-element
vector does not return "y = 7.0": line 59 reads `C[1]` unconditionally,
which raises `IndexError` on a length-1 list (modelled by `none`). -/
theorem c1_single_point_fit_ok_but_formatter_raises :
    least_squares_polynomial [((3 : ℚ), 7)] 0 = .ok [7] ∧
      coefficients_to_string [(7 : ℚ)] 4 = none := by
  constructor <;> with_unfolding_all rfl

/-- C2: for every coefficient vector of length greater than 1 whose entries
all round to zero, the Formatter crashes: no term survives, the string is
still the 3-character "y =", and the sign-fixup read of `y[4]` on line 70
raises `IndexError` (modelled by `none`) instead of returning a
well-formed string. -/
theorem c2_all_zero_vector_formatter_raises (pc : List ℚ) (h2 : 1 < pc.length)
    (hz : ∀ v ∈ pc, py_round v 4 = 0) :
    coefficients_to_string pc 4 = none := by
  obtain ⟨a, t, rfl⟩ : ∃ a t, pc = a :: t := by
    cases pc with
    | nil => simp at h2
    | cons a t => exact ⟨a, t, rfl⟩
  obtain ⟨b, rest, rfl⟩ : ∃ b rest, t = b :: rest := by
    cases t with
    | nil => simp at h2
    | cons b rest => exact ⟨b, rest, rfl⟩
  have ha : py_round a 4 = 0 := hz a (by simp)
  have hb : py_round b 4 = 0 := hz b (by simp)
  have hrest : ∀ v ∈ rest.map (fun v => py_round v 4), v = 0 := by
    intro v hv
    obtain ⟨w, hw, rfl⟩ := List.mem_map.mp hv
    exact hz w (by simp [hw])
  have hlen1 : ((rest.map (fun v => py_round v 4)).length + 1 + 1 = 1) = False :=
    eq_false (by omega)
  simp only [coefficients_to_string, List.map_cons, ha, hb, List.get?_cons_zero,
    List.get?_cons_succ, Option.bind_eq_bind, Option.some_bind, List.length_cons,
    List.drop_succ_cons, List.drop_zero, ne_eq, not_true_eq_false, hlen1,
    eq_self_iff_true, not_true, false_or, if_false, if_true]
  have hy : add_higher_terms (rest.map (fun v => py_round v 4)) 2 "y =" = "y =" :=
    add_higher_terms_of_zeros _ _ _ hrest
  rw [dif_neg (by rw [hy]; decide)]

theorem c2_all_zero_vector_formatter_raises_witness :
    (1 < ([(0 : ℚ), 0] : List ℚ).length ∧
        ∀ v ∈ ([(0 : ℚ), 0] : List ℚ), py_round v 4 = 0) ∧
      coefficients_to_string [(0 : ℚ), 0] 4 = none := by
  have hz : ∀ v ∈ ([(0 : ℚ), 0] : List ℚ), py_round v 4 = 0 := by
    intro v hv
    simp only [List.mem_cons, List.not_mem_nil, or_false] at hv
    rcases hv with rfl | rfl <;> with_unfolding_all rfl
  exact ⟨⟨by simp, hz⟩, c2_all_zero_vector_formatter_raises _ (by simp) hz⟩

/-- C3 counterexample: a call with the negative order −1 surfaces no error
at all — it silently returns an empty coefficient vector, so no
InvalidOrder (nor any other) error is detected inside the Fitter. -/
theorem c3_negative_order_returns_ok_empty :
    least_squares_polynomial [((0 : ℚ), 0)] (-1) = .ok [] := by
  with_unfolding_all rfl

/-- C3 amended: the Fitter performs no order validation.  A call with
order −1 returns an empty coefficient vector without error, and a call
with a non-negative order such that order + 1 exceeds the number of
points fails only later, with the singularity error of the linear solve,
not with an immediate InvalidOrder check. -/
theorem c3_no_invalid_order_check :
    (∀ data : List (ℚ × ℚ), least_squares_polynomial data (-1) = .ok []) ∧
      (∀ (data : List (ℚ × ℚ)) (N : ℤ), 0 ≤ N → (data.length : ℤ) < N + 1 →
        least_squares_polynomial data N = .error .linAlgError) := by
  constructor
  · intro data
    with_unfolding_all rfl
  · intro data N hN hlen
    exact lsp_error_of_det_eq_zero data N
      (det_Amat_eq_zero_of_underdetermined data N hN hlen)

theorem c3_no_invalid_order_check_witness :
    least_squares_polynomial [((5 : ℚ), 5)] (-1) = .ok [] ∧
      (0 ≤ (1 : ℤ) ∧ ((([((1 : ℚ), 1)] : List (ℚ × ℚ)).length : ℤ) < 1 + 1 ∧
        least_squares_polynomial [((1 : ℚ), 1)] 1 = .error .linAlgError)) :=
  ⟨c3_no_invalid_order_check.1 _, by norm_num, by norm_num,
    c3_no_invalid_order_check.2 _ 1 (by norm_num) (by norm_num)⟩

/-- C4: whenever the assembled matrix A is singular the fit raises
`LinAlgError` (the exact-arithmetic reading of NumericalSingularity) and
never returns a coefficient vector. -/
theorem c4_singular_system_raises_linalg_error (data : List (ℚ × ℚ)) (N : ℤ)
    (h : (Amat data N).det = 0) :
    least_squares_polynomial data N = .error .linAlgError ∧
      ∀ cs : List ℚ, least_squares_polynomial data N ≠ .ok cs := by
  refine ⟨lsp_error_of_det_eq_zero data N h, ?_⟩
  intro cs hcs
  rw [lsp_error_of_det_eq_zero data N h] at hcs
  exact absurd hcs (by simp)

theorem c4_singular_system_raises_linalg_error_witness :
    (Amat [((1 : ℚ), 1), (1, 2)] 1).det = 0 ∧
      least_squares_polynomial [((1 : ℚ), 1), (1, 2)] 1 = .error .linAlgError := by
  have hd : (Amat [((1 : ℚ), 1), (1, 2)] 1).det = 0 := by
    with_unfolding_all rfl
  exact ⟨hd, (c4_singular_system_raises_linalg_error _ _ hd).1⟩

/-- C5 counterexample: formatting [2.0, −3.0] with precision 4 does not
return "y = 2 - 3x" — Python `str(2.0)` is "2.0", so the rendered string
is "y = 2.0 - 3.0x". -/
theorem c5_formatter_output_differs_from_claimed :
    coefficients_to_string [(2 : ℚ), -3] 4 ≠ some "y = 2 - 3x" := by
  have h : coefficients_to_string [(2 : ℚ), -3] 4 = some "y = 2.0 - 3.0x" := by
    with_unfolding_all rfl
  rw [h]
  decide

/-- C5 amended: formatting [2.0, −3.0] with precision 4 returns exactly
"y = 2.0 - 3.0x": the first surviving term carries no leading "+" and no
extra spacing, and the displayed leading coefficient is the rounded value
as Python prints it ("2.0"). -/
theorem c5_formatter_renders_python_floats :
    coefficients_to_string [(2 : ℚ), -3] 4 = some "y = 2.0 - 3.0x" := by
  with_unfolding_all rfl

/-- The sum of a constant-one map is the list length. -/
theorem sum_map_ones (l : List (ℚ × ℚ)) :
    (l.map (fun _ => (1 : ℚ))).sum = (l.length : ℚ) := by
  induction l with
  | nil => simp
  | cons a t ih =>
      rw [List.map_cons, List.sum_cons, ih]
      push_cast [List.length_cons]
      ring

/-- C6: for every non-empty point set, fitting with order 0 returns the
single coefficient equal to the arithmetic mean of the y-values. -/
theorem c6_order_zero_fit_is_mean (data : List (ℚ × ℚ)) (h : data ≠ []) :
    least_squares_polynomial data 0
      = .ok [(data.map (fun q => q.2)).sum / (data.length : ℚ)] := by
  have hm : ((data.length : ℚ)) ≠ 0 :=
    Nat.cast_ne_zero.mpr (fun h0 => h (List.length_eq_zero.mp h0))
  have hA : Amat data 0 = Matrix.of (fun _ _ => (data.length : ℚ)) := by
    ext i j
    have hi : (i : ℕ) = 0 := by have := i.isLt; omega
    have hj : (j : ℕ) = 0 := by have := j.isLt; omega
    rw [Amat_apply, hi, hj]
    simp only [Matrix.of_apply, Nat.add_zero, pow_zero]
    exact sum_map_ones data
  have hdet : (Amat data 0).det = (data.length : ℚ) := by
    rw [hA, Matrix.det_fin_one, Matrix.of_apply]
  have hinv : np_linalg_inv (Amat data 0)
      = some ((data.length : ℚ)⁻¹ • 1) := by
    unfold np_linalg_inv
    rw [if_neg (by rw [hdet]; exact hm), hdet, Matrix.adjugate_fin_one]
  have hB : Bvec data 0 ⟨0, by omega⟩ = (data.map (fun q => q.2)).sum := by
    have h0 := sums_of_y_getD data 0 0 (by omega)
    simpa [Bvec, pow_zero, mul_one] using h0
  unfold least_squares_polynomial
  rw [if_neg (by norm_num), hinv]
  have hfr : List.finRange ((0 : ℤ) + 1).toNat
      = [⟨0, by omega⟩] := by
    with_unfolding_all rfl
  rw [hfr]
  simp only [List.map_cons, List.map_nil]
  rw [Matrix.smul_mulVec_assoc, Matrix.one_mulVec]
  simp only [Pi.smul_apply, smul_eq_mul]
  rw [hB, inv_mul_eq_div]

theorem c6_order_zero_fit_is_mean_witness :
    ([((1 : ℚ), 2), (3, 4)] : List (ℚ × ℚ)) ≠ [] ∧
      least_squares_polynomial [((1 : ℚ), 2), (3, 4)] 0 = .ok [3] := by
  constructor
  · simp
  · rw [c6_order_zero_fit_is_mean [((1 : ℚ), 2), (3, 4)] (by simp)]
    with_unfolding_all rfl

/-- C7: the assembled matrix entry A[i][j] is the power sum S_(i+j) of the
x-coordinates for all i, j in [0, N], hence A is symmetric. -/
theorem c7_A_entries_are_power_sums_and_symmetric (data : List (ℚ × ℚ))
    (N : ℤ) (i j : Fin (N + 1).toNat) :
    Amat data N i j = (data.map (fun q => q.1 ^ ((i : ℕ) + (j : ℕ)))).sum ∧
      Amat data N i j = Amat data N j i := by
  refine ⟨Amat_apply data N i j, ?_⟩
  rw [Amat_apply, Amat_apply, Nat.add_comm]

/-- C8: the Evaluator computes the sum over p of coefficients[p] · x^p. -/
theorem c8_get_point_eq_spec_evaluate (pc : List ℚ) (x : ℚ) :
    get_point pc x = spec_evaluate pc x := by
  have h := gp_enumFrom pc x 0
  simpa [get_point, spec_evaluate, List.enum] using h

/-- C9: every successful fit with order N returns exactly N + 1
coefficients. -/
theorem c9_fit_length (data : List (ℚ × ℚ)) (N : ℤ) (cs : List ℚ)
    (h : least_squares_polynomial data N = .ok cs) :
    (cs.length : ℤ) = N + 1 := by
  unfold least_squares_polynomial at h
  by_cases hN : N + 1 < 0
  · rw [if_pos hN] at h
    exact absurd h (by simp)
  · rw [if_neg hN] at h
    cases hinv : np_linalg_inv (Amat data N) with
    | none =>
        rw [hinv] at h
        exact absurd h (by simp)
    | some Ainv =>
        rw [hinv] at h
        injection h with h1
        rw [← h1]
        simp only [List.length_map, List.length_finRange]
        omega

theorem c9_fit_length_witness :
    least_squares_polynomial [((0 : ℚ), 1), (1, 3)] 1 = .ok [1, 2] ∧
      (([(1 : ℚ), 2] : List ℚ).length : ℤ) = 1 + 1 := by
  have h : least_squares_polynomial [((0 : ℚ), 1), (1, 3)] 1 = .ok [1, 2] := by
    with_unfolding_all rfl
  exact ⟨h, c9_fit_length _ _ _ h⟩

/-- C10: evaluating an empty coefficient vector returns 0 for every x
(the empty sum; the Evaluator does not fail on a zero-length input). -/
theorem c10_empty_coefficients_evaluate_zero (x : ℚ) : get_point [] x = 0 :=
  rfl

end PolyReg
